import Mathlib

/-! A first-fit arena allocator (`main.cpp`).

Shallow embedding of the chunk lists and of `heap_alloc`, `heap_free` and
`chunk_list_merge`.

Conventions of the embedding (LP64 target):

* a pointer is the natural number of its byte address, `NULL` is `0`, addresses and
  `size_t` values live below `2 ^ 64`;
* `sizeof(int) = 4` and `sizeof(Chunk) = 16`;
* a `chunk_List` is the list of its first `count` array slots (`count` is the length of the
  list); no function of the program reads a slot at or beyond `count` before writing it;
* a failed `assert` and undefined behaviour are the two faults a call can end in.
-/

namespace Malloc

/-- Capacity of the arena in bytes: `#define heap_CAP 640000`. -/
def heap_CAP : Nat := 640000

/-- Capacity of a chunk list: `#define chunk_list_CAP 1024`. -/
def chunk_list_CAP : Nat := 1024

/-- Number of values of a pointer or of a `size_t`. -/
def WORD : Nat := 2 ^ 64

/-- The value of `sizeof(int)`. -/
def sizeof_int : Nat := 4

/-- The value of `sizeof(list->chunks[0])`: a pointer followed by a `size_t`. -/
def sizeof_Chunk : Nat := 16

/-- The null pointer. -/
def NULL : Nat := 0

/-- The struct `Chunk`: `start` is a byte address, `size` a `size_t`. -/
structure Chunk where
  start : Nat
  size : Nat
deriving DecidableEq, Repr, Inhabited

/-- The struct `chunk_List`, as the list of its `count` live slots. -/
abbrev chunk_List := List Chunk

/-- How a call can fail to return: a failed `assert`, or undefined behaviour. -/
inductive Fault where
  | assertion
  | undefined
deriving DecidableEq, Repr

deriving instance DecidableEq for Except

/-- What `heap_alloc` hands back: the pointer of the `return` statement it executed. -/
inductive RetVal where
  | value (p : Nat)
deriving DecidableEq, Repr

/-- The two global lists `alloced_Chunks` and `freed_chunks`. -/
structure Heap where
  alloced_Chunks : chunk_List
  freed_chunks : chunk_List
deriving DecidableEq, Repr

/-- Conversion of a `ptrdiff_t` to `int`: reduction modulo `2 ^ 32` into the signed range. -/
def toInt32 (z : Int) : Int := (z + 2 ^ 31) % 2 ^ 32 - 2 ^ 31

/-- The pointer `(int *)p + n`, stored back into a `void *`. -/
def int_ptr_add (p n : Nat) : Nat := (p + sizeof_int * n) % WORD

/-- The comparator `chunk_start_comper`: the byte difference of the two starts, returned as
`int`. -/
def chunk_start_comper (a b : Chunk) : Int :=
  toInt32 ((a.start : Int) - (b.start : Int))

/-- The loop of the C library's `bsearch` over the slots `l .. u - 1`; the first argument
bounds the number of iterations. -/
def bsearch_loop (key : Chunk) (base : List Chunk) : Nat → Nat → Nat → Option Nat
  | 0, _, _ => none
  | fuel + 1, l, u =>
    if l < u then
      let idx := (l + u) / 2
      let comparison := chunk_start_comper key (base.getD idx default)
      if comparison < 0 then bsearch_loop key base fuel l idx
      else if 0 < comparison then bsearch_loop key base fuel (idx + 1) u
      else some idx
    else none

/-- The C library's `bsearch` with `chunk_start_comper` as comparator: the index of the slot
it returns a pointer to, or `none` for a null result. Every iteration shrinks `u - l`, so
`nmemb` iterations are never used up before the loop ends. -/
def bsearch (key : Chunk) (base : List Chunk) (nmemb : Nat) : Option Nat :=
  bsearch_loop key base nmemb 0 nmemb

/-- The function `chunk_list_find`: the slot index found by `bsearch` (a pointer difference
counted in chunks) divided by `sizeof(list->chunks[0])`, or `-1`. The assertion
`list->chunks <= result` cannot fail. -/
def chunk_list_find (list : chunk_List) (ptr : Nat) : Int :=
  match bsearch ⟨ptr, 0⟩ list list.length with
  | some idx => ((idx / sizeof_Chunk : Nat) : Int)
  | none => -1

/-- The `for` loop of `chunk_list_insert`, entered with loop variable `i`: while `i > 0` and
slot `i` starts below slot `i - 1`, swap the two slots and decrement `i`. -/
def chunk_list_insert_loop (chunks : List Chunk) : Nat → List Chunk
  | 0 => chunks
  | i + 1 =>
    let cur := chunks.getD (i + 1) default
    let prev := chunks.getD i default
    if cur.start < prev.start then
      chunk_list_insert_loop ((chunks.set (i + 1) prev).set i cur) i
    else chunks

/-- The function `chunk_list_insert`: assert room, write the new chunk into slot `count`, sink
it by swaps, increment `count`. -/
def chunk_list_insert (list : chunk_List) (start size : Nat) : Except Fault chunk_List :=
  if list.length < chunk_list_CAP then
    .ok (chunk_list_insert_loop (list ++ [⟨start, size⟩]) list.length)
  else .error .assertion

/-- The `for` loop of `chunk_list_remove`, entered with loop variable `i` and run for at most
`steps` more iterations: while `i < bound`, copy slot `i + 1` into slot `i`. -/
def chunk_list_remove_loop (bound : Nat) : Nat → Nat → List Chunk → List Chunk
  | 0, _, chunks => chunks
  | steps + 1, i, chunks =>
    if i < bound then
      chunk_list_remove_loop bound steps (i + 1) (chunks.set i (chunks.getD (i + 1) default))
    else chunks

/-- The function `chunk_list_remove`: assert `index <= count`, copy every slot one place down
starting from slot `0`, decrement `count`. With `count = 0` the loop bound `count - 1` wraps
to the largest `size_t` and the loop leaves the array. -/
def chunk_list_remove (list : chunk_List) (index : Nat) : Except Fault chunk_List :=
  if index ≤ list.length then
    if list.length = 0 then .error .undefined
    else
      .ok ((chunk_list_remove_loop (list.length - 1) (list.length - 1) 0 list).take
        (list.length - 1))
  else .error .assertion

/-- The function `heap_alloc`. The body of its `for` loop ends in an unconditional
`return chunk.start`, so only the iteration `i = 0` is ever run; with `size = 0` control
flows off the end of this `void *` function without a `return`, which is undefined
behaviour. -/
def heap_alloc (size : Nat) (st : Heap) : Except Fault (RetVal × Heap) :=
  if 0 < size then
    match st.freed_chunks with
    | [] => .ok (.value NULL, st)
    | chunk :: _ =>
      if size ≤ chunk.size then
        match chunk_list_remove st.freed_chunks 0 with
        | .error e => .error e
        | .ok freed =>
          let tail_size := chunk.size - size
          match chunk_list_insert st.alloced_Chunks chunk.start size with
          | .error e => .error e
          | .ok alloced =>
            if 0 < tail_size then
              match chunk_list_insert freed (int_ptr_add chunk.start size) tail_size with
              | .error e => .error e
              | .ok freed2 => .ok (.value chunk.start, ⟨alloced, freed2⟩)
            else .ok (.value chunk.start, ⟨alloced, freed⟩)
      else .ok (.value chunk.start, st)
  else .error .undefined

/-- The function `heap_free`. -/
def heap_free (ptr : Nat) (st : Heap) : Except Fault Heap :=
  if ptr ≠ NULL then
    let index := chunk_list_find st.alloced_Chunks ptr
    if 0 ≤ index then
      let found := st.alloced_Chunks.getD index.toNat default
      match chunk_list_insert st.freed_chunks found.start found.size with
      | .error e => .error e
      | .ok freed =>
        match chunk_list_remove st.alloced_Chunks index.toNat with
        | .error e => .error e
        | .ok alloced => .ok ⟨alloced, freed⟩
    else .error .assertion
  else .ok st

/-- One iteration of the loop of `chunk_list_merge` on the chunk `chunk` of `src`: extend the
last chunk of `dst` when `(int *)top_chunk->start + top_chunk->size` is `chunk.start`, else
insert `chunk` into `dst`. -/
def chunk_list_merge_step (dst : chunk_List) (chunk : Chunk) : Except Fault chunk_List :=
  if 0 < dst.length then
    let top_chunk := dst.getD (dst.length - 1) default
    if int_ptr_add top_chunk.start top_chunk.size = chunk.start then
      .ok (dst.set (dst.length - 1) ⟨top_chunk.start, (top_chunk.size + chunk.size) % WORD⟩)
    else chunk_list_insert dst chunk.start chunk.size
  else chunk_list_insert dst chunk.start chunk.size

/-- The loop of `chunk_list_merge` over the remaining chunks of `src`. -/
def chunk_list_merge_loop : chunk_List → List Chunk → Except Fault chunk_List
  | dst, [] => .ok dst
  | dst, chunk :: rest =>
    match chunk_list_merge_step dst chunk with
    | .error e => .error e
    | .ok dst2 => chunk_list_merge_loop dst2 rest

/-- The function `chunk_list_merge`, called with a `dst` that is not `src`: `dst->count = 0`,
then one pass over `src`. The result is the final `dst`. -/
def chunk_list_merge (src : chunk_List) : Except Fault chunk_List :=
  chunk_list_merge_loop [] src

/-- Modelled from the spec: the operation `coalesce`, which no function of `main.cpp` performs
(`chunk_list_merge` is never called there): run `chunk_list_merge` on the free list and let its
result replace the free list; the allocated list is not touched. -/
def coalesce (st : Heap) : Except Fault Heap :=
  match chunk_list_merge st.freed_chunks with
  | .error e => .error e
  | .ok merged => .ok ⟨st.alloced_Chunks, merged⟩

/-- The initial values of the two globals, for an arena `heap` placed at address `H`:
`alloced_Chunks` is empty and `freed_chunks` holds the one chunk `{heap, sizeof(heap)}`. -/
def initial (H : Nat) : Heap := ⟨[], [⟨H, heap_CAP⟩]⟩

/-- The states reachable from the initial state by calls of `heap_alloc`, `heap_free` and
`coalesce` that return. -/
inductive Reachable (H : Nat) : Heap → Prop where
  | init : Reachable H (initial H)
  | alloc (size : Nat) (r : RetVal) (s t : Heap) :
      Reachable H s → heap_alloc size s = .ok (r, t) → Reachable H t
  | free (ptr : Nat) (s t : Heap) :
      Reachable H s → heap_free ptr s = .ok t → Reachable H t
  | coalesce (s t : Heap) :
      Reachable H s → coalesce s = .ok t → Reachable H t

/-- Byte `x` lies in the extent `[start, start + size)` of some chunk of the list. -/
def Covered (l : List Chunk) (x : Nat) : Prop :=
  ∃ c ∈ l, c.start ≤ x ∧ x < c.start + c.size

/-- The extents of two chunks share no byte. -/
def Disjoint2 (a b : Chunk) : Prop :=
  a.start + a.size ≤ b.start ∨ b.start + b.size ≤ a.start ∨ a.size = 0 ∨ b.size = 0

/-- The partition property for an arena at `H`: the extents of the allocated and the free
chunks together cover exactly the bytes `[H, H + heap_CAP)`, and no two of them overlap. -/
def Partition (H : Nat) (st : Heap) : Prop :=
  (∀ x, Covered (st.alloced_Chunks ++ st.freed_chunks) x ↔ (H ≤ x ∧ x < H + heap_CAP)) ∧
  (st.alloced_Chunks ++ st.freed_chunks).Pairwise Disjoint2

/-- Sorted ascending by `start`. -/
def SortedByStart (l : List Chunk) : Prop :=
  l.Pairwise (fun a b => a.start ≤ b.start)

/-- The sum of the `size` fields of a list, as a natural number. -/
def total_size (l : List Chunk) : Nat := (l.map Chunk.size).sum

/-- The test of `chunk_list_merge` on the last chunk of `dst` and the next chunk of `src`:
`(int *)top_chunk->start + top_chunk->size == chunk.start`. -/
def MergeTest (top chunk : Chunk) : Prop := int_ptr_add top.start top.size = chunk.start

/-- Both global lists are sorted ascending by `start`. -/
def SortedHeap (st : Heap) : Prop :=
  SortedByStart st.alloced_Chunks ∧ SortedByStart st.freed_chunks

/-- The state after `n` calls `heap_alloc(1)` from the initial state of an arena at 4096 (see
`heap_alloc_one_byte`): `n` allocated chunks of one byte, four bytes apart, and one free
chunk. -/
def one_byte_allocs (n : Nat) : Heap :=
  ⟨(List.range n).map (fun i => ⟨4096 + 4 * i, 1⟩), [⟨4096 + 4 * n, heap_CAP - n⟩]⟩

/-! ## Evaluation lemmas -/

/-- The first allocation of 18 bytes from the initial state, for an arena at any address: the
tail of the free chunk is placed `4 * 18` bytes after the start of the arena. -/
theorem heap_alloc_initial_18 (H : Nat) :
    heap_alloc 18 (initial H) =
      .ok (.value H, ⟨[⟨H, 18⟩], [⟨(H + 72) % 2 ^ 64, 639982⟩]⟩) := by
  simp [heap_alloc, initial, heap_CAP, chunk_list_remove, chunk_list_remove_loop,
    chunk_list_insert, chunk_list_insert_loop, chunk_list_CAP, int_ptr_add, sizeof_int, WORD]

/-- The copy loop of `chunk_list_remove`, entered at slot `pre.length` with `post.length`
slots still to copy, overwrites the slot it stands on and keeps everything else in order. -/
theorem chunk_list_remove_loop_shift (post : List Chunk) :
    ∀ (pre : List Chunk) (x : Chunk),
      (chunk_list_remove_loop (pre.length + post.length) post.length pre.length
        (pre ++ x :: post)).take (pre.length + post.length) = pre ++ post := by
  induction post with
  | nil =>
    intro pre x
    simp [chunk_list_remove_loop]
  | cons y rest ih =>
    intro pre x
    have hlt : pre.length < pre.length + (y :: rest).length := by simp
    have hset : (pre ++ x :: y :: rest).set pre.length
        ((pre ++ x :: y :: rest).getD (pre.length + 1) default) =
        (pre ++ [y]) ++ y :: rest := by
      have hget : (pre ++ x :: y :: rest).getD (pre.length + 1) default = y := by
        rw [List.getD_append_right _ _ _ _ (by omega)]
        simp
      rw [hget, List.set_append_right _ _ (Nat.le_refl _)]
      simp
    have hlen : pre.length + (y :: rest).length = (pre ++ [y]).length + rest.length := by
      simp; omega
    have hidx : pre.length + 1 = (pre ++ [y]).length := by simp
    rw [List.length_cons, chunk_list_remove_loop, if_pos (by omega), hset]
    rw [← List.length_cons y rest, hlen, hidx, ih (pre ++ [y]) y]
    simp

/-- On a non-empty list `chunk_list_remove` drops slot `0`, for every index that passes its
assertion (`index <= count`). -/
theorem chunk_list_remove_cons (c : Chunk) (rest : List Chunk) (index : Nat)
    (h : index ≤ rest.length + 1) :
    chunk_list_remove (c :: rest) index = .ok rest := by
  have := chunk_list_remove_loop_shift rest [] c
  simp at this
  simp [chunk_list_remove, h, this]

/-- The swap loop of `chunk_list_insert`, entered on the new chunk `c` at slot `pre.length`,
moves `c` down to some slot `k`: the chunks it passed all start above `c`, the chunk below
its final slot does not. -/
theorem chunk_list_insert_loop_spec (c : Chunk) (pre : List Chunk) :
    ∀ post : List Chunk, ∃ k, k ≤ pre.length ∧
      chunk_list_insert_loop (pre ++ c :: post) pre.length =
        pre.take k ++ c :: (pre.drop k ++ post) ∧
      (∀ b ∈ pre.drop k, c.start < b.start) ∧
      (∀ b, (pre.take k).getLast? = some b → b.start ≤ c.start) := by
  induction pre using List.reverseRecOn with
  | nil =>
    intro post
    exact ⟨0, by simp [chunk_list_insert_loop]⟩
  | append_singleton pre b ih =>
    intro post
    have hcur : ((pre ++ [b]) ++ c :: post).getD (pre.length + 1) default = c := by
      rw [List.getD_append_right _ _ _ _ (by simp)]
      simp
    have hprev : ((pre ++ [b]) ++ c :: post).getD pre.length default = b := by
      rw [List.append_assoc, List.getD_append_right _ _ _ _ (Nat.le_refl _)]
      simp
    rw [List.length_append, List.length_singleton, chunk_list_insert_loop]
    simp only [hcur, hprev]
    by_cases hlt : c.start < b.start
    · have hswap : (((pre ++ [b]) ++ c :: post).set (pre.length + 1) b).set pre.length c =
          pre ++ c :: b :: post := by
        rw [List.append_assoc, List.set_append_right _ _ (by omega),
          List.set_append_right _ _ (by simp)]
        simp
      obtain ⟨k, hk, heq, hdrop, htake⟩ := ih (b :: post)
      rw [if_pos hlt, hswap, heq]
      refine ⟨k, by omega, ?_, ?_, ?_⟩
      · rw [List.take_append_of_le_length hk, List.drop_append_of_le_length hk]
        simp
      · intro x hx
        rw [List.drop_append_of_le_length hk] at hx
        rcases List.mem_append.mp hx with h | h
        · exact hdrop x h
        · simp at h; subst h; exact hlt
      · intro x hx
        rw [List.take_append_of_le_length hk] at hx
        exact htake x hx
    · rw [if_neg hlt]
      refine ⟨pre.length + 1, Nat.le_refl _, ?_, ?_, ?_⟩
      · have h1 : (pre ++ [b]).take (pre.length + 1) = pre ++ [b] :=
          List.take_of_length_le (by simp)
        have h2 : (pre ++ [b]).drop (pre.length + 1) = [] :=
          List.drop_of_length_le (by simp)
        rw [h1, h2]
        simp
      · intro x hx
        rw [List.drop_of_length_le (by simp)] at hx
        simp at hx
      · intro x hx
        rw [List.take_of_length_le (by simp)] at hx
        simp at hx
        subst hx
        omega

/-- Below capacity `chunk_list_insert` returns, and its result is the old list with the new
chunk placed at some slot `k`, above every chunk that starts above it and right after a chunk
that does not. -/
theorem chunk_list_insert_spec (list : chunk_List) (start size : Nat)
    (hcap : list.length < chunk_list_CAP) :
    ∃ k, k ≤ list.length ∧
      chunk_list_insert list start size = .ok (list.take k ++ ⟨start, size⟩ :: list.drop k) ∧
      (∀ b ∈ list.drop k, start < b.start) ∧
      (∀ b, (list.take k).getLast? = some b → b.start ≤ start) := by
  obtain ⟨k, hk, heq, hdrop, htake⟩ := chunk_list_insert_loop_spec ⟨start, size⟩ list []
  refine ⟨k, hk, ?_, hdrop, htake⟩
  simp only [chunk_list_insert, hcap, if_true, heq, List.append_nil]

/-- A byte difference that is not a multiple of `2 ^ 32` stays nonzero when returned as
`int`. -/
theorem toInt32_ne_zero (z : Int) (hz : z % 2 ^ 32 ≠ 0) : toInt32 z ≠ 0 := by
  unfold toInt32
  omega

/-- The search loop returns a null result when no slot compares equal to the key. -/
theorem bsearch_loop_none (key : Chunk) (base : List Chunk)
    (hne : ∀ i, i < base.length → chunk_start_comper key (base.getD i default) ≠ 0) :
    ∀ (fuel l u : Nat), u ≤ base.length → bsearch_loop key base fuel l u = none := by
  intro fuel
  induction fuel with
  | zero => intro l u _; rfl
  | succ n ih =>
    intro l u hu
    unfold bsearch_loop
    by_cases hlu : l < u
    · have hidx : (l + u) / 2 < base.length := by omega
      have hc := hne _ hidx
      simp only [hlu, if_true]
      by_cases h1 : chunk_start_comper key (base.getD ((l + u) / 2) default) < 0
      · simp only [h1, if_true]
        exact ih l _ (by omega)
      · by_cases h2 : 0 < chunk_start_comper key (base.getD ((l + u) / 2) default)
        · simp only [h1, h2, if_true, if_false]
          exact ih _ u hu
        · exfalso; omega
    · simp only [hlu, if_false]

/-- The function `chunk_list_find` returns `-1` for an address that is congruent modulo `2 ^ 32`
to the start of no chunk of the list. -/
theorem chunk_list_find_absent (list : chunk_List) (p : Nat)
    (hnot : ∀ c ∈ list, c.start % 2 ^ 32 ≠ p % 2 ^ 32) :
    chunk_list_find list p = -1 := by
  have hne : ∀ i, i < list.length →
      chunk_start_comper ⟨p, 0⟩ (list.getD i default) ≠ 0 := by
    intro i hi
    have hmem : list.getD i default ∈ list := by
      rw [List.getD_eq_getElem _ _ hi]
      exact List.getElem_mem hi
    have h1 := hnot _ hmem
    unfold chunk_start_comper
    apply toInt32_ne_zero
    dsimp only
    omega
  unfold chunk_list_find bsearch
  rw [bsearch_loop_none _ _ hne _ _ _ (Nat.le_refl _)]

/-- The state after one `heap_alloc 10` from the initial state of an arena at 4096. -/
theorem reachable_after_alloc_10 :
    Reachable 4096 ⟨[⟨4096, 10⟩], [⟨4136, 639990⟩]⟩ :=
  Reachable.alloc 10 (.value 4096) (initial 4096) _ Reachable.init (by rfl)

/-- The state after two `heap_alloc 10` from the initial state of an arena at 4096; the second
call returns 4136. -/
theorem reachable_after_two_alloc_10 :
    Reachable 4096 ⟨[⟨4096, 10⟩, ⟨4136, 10⟩], [⟨4176, 639980⟩]⟩ :=
  Reachable.alloc 10 (.value 4136) _ _ reachable_after_alloc_10 (by rfl)

/-- The demonstration of `main` with the arena at 4096: allocate 18 bytes, release them. The
allocated list is empty again, the free list holds two chunks of 640000 bytes in all, and
`chunk_list_merge` joins them into the initial chunk. -/
theorem main_demo_round_trip :
    heap_alloc 18 (initial 4096) = .ok (.value 4096, ⟨[⟨4096, 18⟩], [⟨4168, 639982⟩]⟩) ∧
    heap_free 4096 ⟨[⟨4096, 18⟩], [⟨4168, 639982⟩]⟩ =
      .ok ⟨[], [⟨4096, 18⟩, ⟨4168, 639982⟩]⟩ ∧
    chunk_list_merge [⟨4096, 18⟩, ⟨4168, 639982⟩] = .ok (initial 4096).freed_chunks := by
  exact ⟨by rfl, by rfl, by rfl⟩

/-- In a sorted list no chunk starts above the last one. -/
theorem sorted_le_getLast (l : List Chunk) (hs : SortedByStart l) (b : Chunk)
    (hb : l.getLast? = some b) : ∀ a ∈ l, a.start ≤ b.start := by
  intro a ha
  rcases List.eq_nil_or_concat l with hnil | ⟨l2, x, hx⟩
  · subst hnil; simp at ha
  · subst hx
    rw [List.concat_eq_append] at hs ha hb
    simp at hb
    subst hb
    unfold SortedByStart at hs
    rw [List.pairwise_append] at hs
    rcases List.mem_append.mp ha with h | h
    · exact hs.2.2 a h x (by simp)
    · simp at h; subst h; exact Nat.le_refl _

/-- Below capacity, `chunk_list_insert` into a sorted list returns a sorted list with one more
chunk that is a permutation of the new chunk and the old ones. -/
theorem chunk_list_insert_sorted (list : chunk_List) (start size : Nat)
    (hs : SortedByStart list) (hcap : list.length < chunk_list_CAP) :
    ∃ out, chunk_list_insert list start size = .ok out ∧ out.length = list.length + 1 ∧
      SortedByStart out ∧ out.Perm (⟨start, size⟩ :: list) := by
  obtain ⟨k, hk, heq, hdrop, htake⟩ := chunk_list_insert_spec list start size hcap
  refine ⟨_, heq, ?_, ?_, ?_⟩
  · simp only [List.length_append, List.length_cons, List.length_take, List.length_drop]
    omega
  · have hsplit : list.take k ++ list.drop k = list := List.take_append_drop k list
    have hs2 : (list.take k ++ list.drop k).Pairwise (fun a b => a.start ≤ b.start) := by
      rw [hsplit]; exact hs
    rw [List.pairwise_append] at hs2
    obtain ⟨hst, hsd, hcross⟩ := hs2
    unfold SortedByStart
    rw [List.pairwise_append, List.pairwise_cons]
    refine ⟨hst, ⟨fun b hb => Nat.le_of_lt (hdrop b hb), hsd⟩, ?_⟩
    intro a ha b hb
    rcases List.mem_cons.mp hb with h | h
    · subst h
      cases hlast : (list.take k).getLast? with
      | none =>
        rw [List.getLast?_eq_none_iff] at hlast
        rw [hlast] at ha
        simp at ha
      | some x =>
        have h1 := sorted_le_getLast _ hst x hlast a ha
        have h2 := htake x hlast
        exact Nat.le_trans h1 h2
    · exact hcross a ha b h
  · have hp : (list.take k ++ ⟨start, size⟩ :: list.drop k).Perm
        (⟨start, size⟩ :: (list.take k ++ list.drop k)) := List.perm_middle
    rw [List.take_append_drop] at hp
    exact hp

/-- A chunk that starts at or above every chunk of the list is left in the last slot. -/
theorem chunk_list_insert_at_end (list : chunk_List) (start size : Nat)
    (hle : ∀ b ∈ list, b.start ≤ start) (hcap : list.length < chunk_list_CAP) :
    chunk_list_insert list start size = .ok (list ++ [⟨start, size⟩]) := by
  obtain ⟨k, hk, heq, hdrop, -⟩ := chunk_list_insert_spec list start size hcap
  have hnil : list.drop k = [] := by
    cases hd : list.drop k with
    | nil => rfl
    | cons b t =>
      have hb : b ∈ list.drop k := by rw [hd]; simp
      have h1 := hdrop b hb
      have h2 := hle b (List.mem_of_mem_drop hb)
      omega
  have htk : list.take k = list := by
    have := List.take_append_drop k list
    rw [hnil, List.append_nil] at this
    exact this
  rw [heq, hnil, htk]

/-- The total size of an appended list. -/
theorem total_size_append (l1 l2 : List Chunk) :
    total_size (l1 ++ l2) = total_size l1 + total_size l2 := by
  simp [total_size]

/-- The total size of a list with one more chunk in front. -/
theorem total_size_cons (c : Chunk) (l : List Chunk) :
    total_size (c :: l) = c.size + total_size l := by
  simp [total_size]

/-- The total size of a one-chunk list. -/
theorem total_size_singleton (c : Chunk) : total_size [c] = c.size := by
  simp [total_size]

/-- With an empty `dst` the merge step inserts the chunk. -/
theorem chunk_list_merge_step_nil (chunk : Chunk) :
    chunk_list_merge_step [] chunk = chunk_list_insert [] chunk.start chunk.size := by
  simp [chunk_list_merge_step]

/-- With a last chunk `top` in `dst`, the merge step extends `top` when the test holds and inserts
the chunk otherwise. -/
theorem chunk_list_merge_step_concat (front : List Chunk) (top chunk : Chunk) :
    chunk_list_merge_step (front ++ [top]) chunk =
      if int_ptr_add top.start top.size = chunk.start then
        .ok (front ++ [⟨top.start, (top.size + chunk.size) % WORD⟩])
      else chunk_list_insert (front ++ [top]) chunk.start chunk.size := by
  have hlen : (front ++ [top]).length - 1 = front.length := by simp
  have hget : (front ++ [top]).getD front.length default = top := by
    rw [List.getD_append_right _ _ _ _ (Nat.le_refl _)]
    simp
  have hpos : 0 < (front ++ [top]).length := by simp
  unfold chunk_list_merge_step
  rw [if_pos hpos, hlen]
  simp only [hget]
  rw [List.set_append_right _ _ (Nat.le_refl _)]
  simp

/-- Below capacity a merge step returns; it adds at most one chunk and adds `chunk.size` to the
total size modulo `2 ^ 64`, exactly so when the new total is below `2 ^ 64`. -/
theorem chunk_list_merge_step_total (dst : chunk_List) (chunk : Chunk)
    (hcap : dst.length < chunk_list_CAP) :
    ∃ out, chunk_list_merge_step dst chunk = .ok out ∧ out.length ≤ dst.length + 1 ∧
      total_size out % WORD = (total_size dst + chunk.size) % WORD ∧
      (total_size dst + chunk.size < WORD → total_size out = total_size dst + chunk.size) := by
  have hins : ∃ out, chunk_list_insert dst chunk.start chunk.size = .ok out ∧
      out.length ≤ dst.length + 1 ∧
      total_size out % WORD = (total_size dst + chunk.size) % WORD ∧
      (total_size dst + chunk.size < WORD →
        total_size out = total_size dst + chunk.size) := by
    obtain ⟨k, hk, heq, -, -⟩ := chunk_list_insert_spec dst chunk.start chunk.size hcap
    have hsum : total_size (dst.take k ++ ⟨chunk.start, chunk.size⟩ :: dst.drop k) =
        total_size dst + chunk.size := by
      have h := total_size_append (dst.take k) (dst.drop k)
      rw [List.take_append_drop] at h
      rw [total_size_append, total_size_cons, h]
      simp only []
      omega
    refine ⟨_, heq, ?_, by rw [hsum], fun _ => hsum⟩
    simp only [List.length_append, List.length_cons, List.length_take, List.length_drop]
    omega
  rcases List.eq_nil_or_concat dst with hnil | ⟨front, top, hx⟩
  · subst hnil
    rw [chunk_list_merge_step_nil]
    exact hins
  · rw [List.concat_eq_append] at hx
    subst hx
    rw [chunk_list_merge_step_concat]
    by_cases hadj : int_ptr_add top.start top.size = chunk.start
    · rw [if_pos hadj]
      refine ⟨_, rfl, by simp, ?_, ?_⟩
      · simp only [total_size_append, total_size_singleton]
        unfold WORD
        omega
      · intro hlt
        simp only [total_size_append, total_size_singleton] at hlt ⊢
        unfold WORD at hlt ⊢
        omega
    · rw [if_neg hadj]
      exact hins

/-- Within capacity the merge loop returns; the result has at most as many chunks as `dst` and
the rest of `src` together, and their total size modulo `2 ^ 64`, exactly so below `2 ^ 64`. -/
theorem chunk_list_merge_loop_total (rest : List Chunk) :
    ∀ dst : chunk_List, dst.length + rest.length ≤ chunk_list_CAP →
      ∃ out, chunk_list_merge_loop dst rest = .ok out ∧
        out.length ≤ dst.length + rest.length ∧
        total_size out % WORD = (total_size dst + total_size rest) % WORD ∧
        (total_size dst + total_size rest < WORD →
          total_size out = total_size dst + total_size rest) := by
  induction rest with
  | nil =>
    intro dst _
    exact ⟨dst, rfl, by simp, by simp [total_size], by simp [total_size]⟩
  | cons chunk rest ih =>
    intro dst hcap
    rw [List.length_cons] at hcap
    obtain ⟨d2, hstep, hlen, hmod, hex⟩ :=
      chunk_list_merge_step_total dst chunk (by omega)
    obtain ⟨out, hloop, hlen2, hmod2, hex2⟩ := ih d2 (by omega)
    refine ⟨out, ?_, ?_, ?_, ?_⟩
    · simp only [chunk_list_merge_loop, hstep, hloop]
    · rw [List.length_cons]; omega
    · rw [total_size_cons, hmod2]
      unfold WORD at hmod ⊢
      omega
    · intro hlt
      rw [total_size_cons] at hlt ⊢
      have h1 := hex (by omega)
      have h2 := hex2 (by omega)
      omega

/-- Sortedness depends on the starts only, and passes to sublists of the starts. -/
theorem sorted_of_starts_sublist (l1 l2 : List Chunk) (hs : SortedByStart l1)
    (hsub : (l2.map Chunk.start).Sublist (l1.map Chunk.start)) : SortedByStart l2 := by
  unfold SortedByStart at hs ⊢
  have h1 : (l1.map Chunk.start).Pairwise (fun a b => a ≤ b) := List.pairwise_map.mpr hs
  exact List.pairwise_map.mp (h1.sublist hsub)

/-- When `chunk_list_insert` returns for a chunk that starts at or above every chunk of the
list, the result is the list with the chunk appended. -/
theorem chunk_list_insert_at_end_of_ok (list out : chunk_List) (start size : Nat)
    (hle : ∀ b ∈ list, b.start ≤ start)
    (hok : chunk_list_insert list start size = .ok out) : out = list ++ [⟨start, size⟩] := by
  by_cases hcap : list.length < chunk_list_CAP
  · rw [chunk_list_insert_at_end list start size hle hcap] at hok
    exact (Except.ok.inj hok).symm
  · simp [chunk_list_insert, hcap] at hok

/-- On a sorted input the result of the merge loop is sorted and no two neighbours of it pass
the merge test. -/
theorem chunk_list_merge_loop_sorted (rest : List Chunk) :
    ∀ dst out : chunk_List, SortedByStart (dst ++ rest) →
      dst.Chain' (fun r s => ¬ MergeTest r s) →
      chunk_list_merge_loop dst rest = .ok out →
      SortedByStart out ∧ out.Chain' (fun r s => ¬ MergeTest r s) := by
  induction rest with
  | nil =>
    intro dst out hs hc hok
    simp only [chunk_list_merge_loop] at hok
    have := Except.ok.inj hok
    subst this
    exact ⟨by simpa using hs, hc⟩
  | cons chunk rest ih =>
    intro dst out hs hc hok
    have hle : ∀ b ∈ dst, b.start ≤ chunk.start := by
      intro b hb
      unfold SortedByStart at hs
      rw [List.pairwise_append] at hs
      exact hs.2.2 b hb chunk (by simp)
    have hs2 : SortedByStart ((dst ++ [chunk]) ++ rest) := by
      rw [List.append_assoc]; exact hs
    rw [chunk_list_merge_loop] at hok
    cases hstep : chunk_list_merge_step dst chunk with
    | error e => rw [hstep] at hok; simp at hok
    | ok d2 =>
      rw [hstep] at hok
      simp only [] at hok
      rcases List.eq_nil_or_concat dst with hnil | ⟨front, top, hx⟩
      · subst hnil
        rw [chunk_list_merge_step_nil] at hstep
        have hd := chunk_list_insert_at_end_of_ok _ _ _ _ hle hstep
        subst hd
        exact ih _ out hs2 (by simp) hok
      · rw [List.concat_eq_append] at hx
        subst hx
        rw [chunk_list_merge_step_concat] at hstep
        by_cases hadj : int_ptr_add top.start top.size = chunk.start
        · rw [if_pos hadj] at hstep
          have hd := (Except.ok.inj hstep).symm
          subst hd
          have hs3 : SortedByStart
              ((front ++ [⟨top.start, (top.size + chunk.size) % WORD⟩]) ++ rest) := by
            apply sorted_of_starts_sublist _ _ hs
            simp only [List.map_append, List.map_cons, List.map_nil, List.append_assoc]
            exact List.Sublist.append (List.Sublist.refl _)
              (List.Sublist.append (List.Sublist.refl _) (List.sublist_cons_self _ _))
          have hc3 : (front ++
              [(⟨top.start, (top.size + chunk.size) % WORD⟩ : Chunk)]).Chain'
              (fun r s => ¬ MergeTest r s) := by
            rw [List.chain'_append] at hc ⊢
            refine ⟨hc.1, List.chain'_singleton _, ?_⟩
            intro x hx y hy
            simp at hy
            subst hy
            exact hc.2.2 x hx top (by simp)
          exact ih _ out hs3 hc3 hok
        · rw [if_neg hadj] at hstep
          have hd := chunk_list_insert_at_end_of_ok _ _ _ _ hle hstep
          subst hd
          have hc3 : ((front ++ [top]) ++ [chunk]).Chain' (fun r s => ¬ MergeTest r s) := by
            rw [List.chain'_append]
            refine ⟨hc, List.chain'_singleton _, ?_⟩
            intro x hx y hy
            simp at hx hy
            subst hx hy
            exact hadj
          exact ih _ out hs2 hc3 hok

/-- On a sorted list within capacity in which no two neighbours pass the merge test, the merge
loop appends the rest of `src` to `dst` unchanged. -/
theorem chunk_list_merge_loop_fixed (rest : List Chunk) :
    ∀ dst : chunk_List, SortedByStart (dst ++ rest) →
      (dst ++ rest).Chain' (fun r s => ¬ MergeTest r s) →
      dst.length + rest.length ≤ chunk_list_CAP →
      chunk_list_merge_loop dst rest = .ok (dst ++ rest) := by
  induction rest with
  | nil =>
    intro dst _ _ _
    simp [chunk_list_merge_loop]
  | cons chunk rest ih =>
    intro dst hs hc hcap
    rw [List.length_cons] at hcap
    have hle : ∀ b ∈ dst, b.start ≤ chunk.start := by
      intro b hb
      unfold SortedByStart at hs
      rw [List.pairwise_append] at hs
      exact hs.2.2 b hb chunk (by simp)
    have hend : chunk_list_insert dst chunk.start chunk.size = .ok (dst ++ [chunk]) :=
      chunk_list_insert_at_end dst chunk.start chunk.size hle (by omega)
    have hassoc : (dst ++ [chunk]) ++ rest = dst ++ chunk :: rest := by simp
    have hstep : chunk_list_merge_step dst chunk = .ok (dst ++ [chunk]) := by
      rcases List.eq_nil_or_concat dst with hnil | ⟨front, top, hx⟩
      · subst hnil
        rw [chunk_list_merge_step_nil, hend]
      · rw [List.concat_eq_append] at hx
        subst hx
        have hadj : ¬ int_ptr_add top.start top.size = chunk.start := by
          rw [List.append_assoc, List.singleton_append, List.chain'_split] at hc
          have h2 := hc.2
          rw [List.chain'_cons] at h2
          exact h2.1
        rw [chunk_list_merge_step_concat, if_neg hadj, hend]
    have h := ih (dst ++ [chunk]) (by rw [hassoc]; exact hs) (by rw [hassoc]; exact hc)
      (by simp; omega)
    simp only [chunk_list_merge_loop, hstep]
    rw [h, hassoc]

/-- On a sorted list within capacity `chunk_list_merge` returns, and it maps its result to
itself. -/
theorem chunk_list_merge_twice (L : chunk_List) (hs : SortedByStart L)
    (hcap : L.length ≤ chunk_list_CAP) :
    ∃ M, chunk_list_merge L = .ok M ∧ chunk_list_merge M = .ok M := by
  obtain ⟨M, hM, hlen, -, -⟩ := chunk_list_merge_loop_total L [] (by simpa using hcap)
  obtain ⟨hso, hco⟩ :=
    chunk_list_merge_loop_sorted L [] M (by simpa using hs) List.chain'_nil hM
  refine ⟨M, hM, ?_⟩
  have h := chunk_list_merge_loop_fixed M [] (by simpa using hso) (by simpa using hco)
    (by simp at hlen ⊢; omega)
  simpa [chunk_list_merge] using h

/-- When `chunk_list_insert` returns on a sorted list, the result is sorted. -/
theorem chunk_list_insert_sorted_of_ok (list out : chunk_List) (start size : Nat)
    (hs : SortedByStart list) (hok : chunk_list_insert list start size = .ok out) :
    SortedByStart out := by
  by_cases hcap : list.length < chunk_list_CAP
  · obtain ⟨o, ho, -, hso, -⟩ := chunk_list_insert_sorted list start size hs hcap
    rw [ho] at hok
    have := Except.ok.inj hok
    subst this
    exact hso
  · simp [chunk_list_insert, hcap] at hok

/-- When `chunk_list_remove` returns on a sorted list, the result is sorted. -/
theorem chunk_list_remove_sorted_of_ok (list out : chunk_List) (index : Nat)
    (hs : SortedByStart list) (hok : chunk_list_remove list index = .ok out) :
    SortedByStart out := by
  cases list with
  | nil =>
    simp only [chunk_list_remove, List.length_nil] at hok
    split at hok <;> simp at hok
  | cons c rest =>
    by_cases hi : index ≤ rest.length + 1
    · rw [chunk_list_remove_cons c rest index hi] at hok
      have := Except.ok.inj hok
      subst this
      exact (List.pairwise_cons.mp hs).2
    · simp [chunk_list_remove, hi] at hok

/-- When `heap_alloc` returns from a state with sorted lists, the lists are sorted afterwards. -/
theorem heap_alloc_sorted (st t : Heap) (size : Nat) (r : RetVal) (hs : SortedHeap st)
    (hok : heap_alloc size st = .ok (r, t)) : SortedHeap t := by
  obtain ⟨alloced, freed⟩ := st
  obtain ⟨hsa, hsf⟩ := hs
  dsimp only at hsa hsf
  unfold heap_alloc at hok
  by_cases hpos : 0 < size
  · rw [if_pos hpos] at hok
    cases freed with
    | nil =>
      simp only [Except.ok.injEq, Prod.mk.injEq] at hok
      rw [← hok.2]
      exact ⟨hsa, hsf⟩
    | cons chunk rest =>
      dsimp only at hok
      by_cases hfit : size ≤ chunk.size
      · rw [if_pos hfit, chunk_list_remove_cons chunk rest 0 (Nat.zero_le _)] at hok
        dsimp only at hok
        have hsr : SortedByStart rest := (List.pairwise_cons.mp hsf).2
        cases hA : chunk_list_insert alloced chunk.start size with
        | error e => rw [hA] at hok; simp at hok
        | ok a2 =>
          rw [hA] at hok
          dsimp only at hok
          have hsa2 := chunk_list_insert_sorted_of_ok _ _ _ _ hsa hA
          by_cases htail : 0 < chunk.size - size
          · rw [if_pos htail] at hok
            cases hF : chunk_list_insert rest (int_ptr_add chunk.start size)
                (chunk.size - size) with
            | error e => rw [hF] at hok; simp at hok
            | ok f2 =>
              rw [hF] at hok
              simp only [Except.ok.injEq, Prod.mk.injEq] at hok
              rw [← hok.2]
              exact ⟨hsa2, chunk_list_insert_sorted_of_ok _ _ _ _ hsr hF⟩
          · rw [if_neg htail] at hok
            simp only [Except.ok.injEq, Prod.mk.injEq] at hok
            rw [← hok.2]
            exact ⟨hsa2, hsr⟩
      · rw [if_neg hfit] at hok
        simp only [Except.ok.injEq, Prod.mk.injEq] at hok
        rw [← hok.2]
        exact ⟨hsa, hsf⟩
  · rw [if_neg hpos] at hok
    simp at hok

/-- When `heap_free` returns from a state with sorted lists, the lists are sorted afterwards. -/
theorem heap_free_sorted (st t : Heap) (p : Nat) (hs : SortedHeap st)
    (hok : heap_free p st = .ok t) : SortedHeap t := by
  obtain ⟨alloced, freed⟩ := st
  obtain ⟨hsa, hsf⟩ := hs
  dsimp only at hsa hsf
  unfold heap_free at hok
  by_cases hp : p ≠ NULL
  · rw [if_pos hp] at hok
    dsimp only at hok
    by_cases hidx : 0 ≤ chunk_list_find alloced p
    · rw [if_pos hidx] at hok
      cases hF : chunk_list_insert freed
          (alloced.getD (chunk_list_find alloced p).toNat default).start
          (alloced.getD (chunk_list_find alloced p).toNat default).size with
      | error e => rw [hF] at hok; simp at hok
      | ok f2 =>
        rw [hF] at hok
        dsimp only at hok
        cases hA : chunk_list_remove alloced (chunk_list_find alloced p).toNat with
        | error e => rw [hA] at hok; simp at hok
        | ok a2 =>
          rw [hA] at hok
          simp only [Except.ok.injEq] at hok
          rw [← hok]
          exact ⟨chunk_list_remove_sorted_of_ok _ _ _ hsa hA,
            chunk_list_insert_sorted_of_ok _ _ _ _ hsf hF⟩
    · rw [if_neg hidx] at hok
      simp at hok
  · rw [if_neg hp] at hok
    simp only [Except.ok.injEq] at hok
    rw [← hok]
    exact ⟨hsa, hsf⟩

/-- When `coalesce` returns from a state with sorted lists, the lists are sorted afterwards. -/
theorem coalesce_sorted (st t : Heap) (hs : SortedHeap st)
    (hok : coalesce st = .ok t) : SortedHeap t := by
  obtain ⟨hsa, hsf⟩ := hs
  unfold coalesce at hok
  cases hM : chunk_list_merge st.freed_chunks with
  | error e => rw [hM] at hok; simp at hok
  | ok m =>
    rw [hM] at hok
    simp only [Except.ok.injEq] at hok
    rw [← hok]
    exact ⟨hsa, (chunk_list_merge_loop_sorted st.freed_chunks [] m (by simpa using hsf)
      List.chain'_nil hM).1⟩

/-- Both lists are sorted in every reachable state. -/
theorem reachable_sorted (H : Nat) (st : Heap) (hr : Reachable H st) : SortedHeap st := by
  induction hr with
  | init => exact ⟨by simp [initial, SortedByStart], by simp [initial, SortedByStart]⟩
  | alloc size r s t _ hok ih => exact heap_alloc_sorted s t size r ih hok
  | free ptr s t _ hok ih => exact heap_free_sorted s t ptr ih hok
  | coalesce s t _ hok ih => exact coalesce_sorted s t ih hok

/-- With a non-empty free list and room in the lists, `heap_alloc` returns the start of the
first free chunk `c`. When `c` is too small the state is unchanged. When `c` is large enough the
allocated list becomes the result of inserting `(c.start, size)`, and the free list loses `c`
and becomes the result of inserting the tail `((int *)c.start + size, c.size - size)` when that
tail is not empty. -/
theorem heap_alloc_first_entry_aux (alloced rest : chunk_List) (c : Chunk) (size : Nat)
    (hpos : 0 < size) (hA : size ≤ c.size → alloced.length < chunk_list_CAP)
    (hF : rest.length < chunk_list_CAP) :
    ∃ t, heap_alloc size ⟨alloced, c :: rest⟩ = .ok (.value c.start, t) ∧
      (c.size < size → t = ⟨alloced, c :: rest⟩) ∧
      (size ≤ c.size →
        chunk_list_insert alloced c.start size = .ok t.alloced_Chunks ∧
        t.alloced_Chunks.Perm (⟨c.start, size⟩ :: alloced) ∧
        (c.size = size → t.freed_chunks = rest) ∧
        (size < c.size →
          chunk_list_insert rest (int_ptr_add c.start size) (c.size - size) =
            .ok t.freed_chunks)) ∧
      (t ≠ ⟨alloced, c :: rest⟩ ↔ size ≤ c.size) := by
  unfold heap_alloc
  rw [if_pos hpos]
  dsimp only
  by_cases hfit : size ≤ c.size
  · rw [if_pos hfit, chunk_list_remove_cons c rest 0 (Nat.zero_le _)]
    dsimp only
    obtain ⟨k, hk, heq, -, -⟩ := chunk_list_insert_spec alloced c.start size (hA hfit)
    rw [heq]
    dsimp only
    have hperm : (alloced.take k ++ ⟨c.start, size⟩ :: alloced.drop k).Perm
        (⟨c.start, size⟩ :: alloced) := by
      have hp : (alloced.take k ++ ⟨c.start, size⟩ :: alloced.drop k).Perm
          (⟨c.start, size⟩ :: (alloced.take k ++ alloced.drop k)) := List.perm_middle
      rw [List.take_append_drop] at hp
      exact hp
    have hne : ∀ f : chunk_List,
        (⟨alloced.take k ++ ⟨c.start, size⟩ :: alloced.drop k, f⟩ : Heap) ≠
          ⟨alloced, c :: rest⟩ := by
      intro f h
      have h1 := congrArg (fun s => s.alloced_Chunks.length) h
      simp only [List.length_append, List.length_cons, List.length_take,
        List.length_drop] at h1
      omega
    by_cases htail : 0 < c.size - size
    · rw [if_pos htail]
      obtain ⟨k2, -, heq2, -, -⟩ :=
        chunk_list_insert_spec rest (int_ptr_add c.start size) (c.size - size) hF
      rw [heq2]
      refine ⟨_, rfl, fun h => absurd hfit (Nat.not_le.mpr h), fun _ => ?_,
        fun _ => hfit, fun _ => hne _⟩
      exact ⟨rfl, hperm, fun h => by omega, fun _ => rfl⟩
    · rw [if_neg htail]
      refine ⟨_, rfl, fun h => absurd hfit (Nat.not_le.mpr h), fun _ => ?_,
        fun _ => hfit, fun _ => hne _⟩
      exact ⟨rfl, hperm, fun _ => rfl, fun h => by omega⟩
  · rw [if_neg hfit]
    exact ⟨_, rfl, fun _ => rfl, fun h => absurd h hfit, fun h => absurd rfl h,
      fun h => absurd h hfit⟩

/-- With the allocated list at capacity and a first free chunk that is large enough,
`heap_alloc` ends in the failed assertion of `chunk_list_insert`. -/
theorem heap_alloc_full_allocated (alloced rest : chunk_List) (c : Chunk) (size : Nat)
    (hpos : 0 < size) (hfit : size ≤ c.size) (hfull : ¬ alloced.length < chunk_list_CAP) :
    heap_alloc size ⟨alloced, c :: rest⟩ = .error .assertion := by
  unfold heap_alloc
  rw [if_pos hpos]
  dsimp only
  rw [if_pos hfit, chunk_list_remove_cons c rest 0 (Nat.zero_le _)]
  dsimp only
  unfold chunk_list_insert
  rw [if_neg hfull]

/-- One more `heap_alloc(1)` after `n < 1024` of them. -/
theorem heap_alloc_one_byte (n : Nat) (hn : n < chunk_list_CAP) :
    heap_alloc 1 (one_byte_allocs n) =
      .ok (.value (4096 + 4 * n), one_byte_allocs (n + 1)) := by
  unfold chunk_list_CAP at hn
  have hle : ∀ b ∈ (List.range n).map (fun i => (⟨4096 + 4 * i, 1⟩ : Chunk)),
      b.start ≤ 4096 + 4 * n := by
    intro b hb
    obtain ⟨i, hi, rfl⟩ := List.mem_map.mp hb
    have := List.mem_range.mp hi
    dsimp only
    omega
  have hins := chunk_list_insert_at_end _ (4096 + 4 * n) 1 hle
    (by rw [List.length_map, List.length_range]; unfold chunk_list_CAP; exact hn)
  have htail : 0 < heap_CAP - n - 1 := by unfold heap_CAP; omega
  have hptr : int_ptr_add (4096 + 4 * n) 1 = 4096 + 4 * (n + 1) := by
    unfold int_ptr_add sizeof_int WORD
    omega
  have hins2 : chunk_list_insert [] (4096 + 4 * (n + 1)) (heap_CAP - n - 1) =
      .ok [⟨4096 + 4 * (n + 1), heap_CAP - (n + 1)⟩] := by
    simp [chunk_list_insert, chunk_list_insert_loop, chunk_list_CAP, Nat.sub_sub]
  have hfit : 1 ≤ heap_CAP - n := by unfold heap_CAP; omega
  unfold heap_alloc one_byte_allocs
  rw [if_pos Nat.one_pos]
  dsimp only
  rw [if_pos hfit, chunk_list_remove_cons _ [] 0 (Nat.zero_le _)]
  dsimp only
  rw [hins]
  dsimp only
  rw [if_pos htail, hptr, hins2, List.range_succ, List.map_append]
  rfl

/-- The state after `n` calls `heap_alloc(1)` is reachable, for `n` up to the capacity. -/
theorem reachable_one_byte_allocs (n : Nat) (hn : n ≤ chunk_list_CAP) :
    Reachable 4096 (one_byte_allocs n) := by
  induction n with
  | zero => exact Reachable.init
  | succ n ih =>
    exact Reachable.alloc 1 _ _ _ (ih (by omega)) (heap_alloc_one_byte n (by omega))

/-- The total size of a list whose chunks are no larger than the arena is at most the count
times the arena size. -/
theorem total_size_le_of_sizes_le (l : List Chunk) (h : ∀ c ∈ l, c.size ≤ heap_CAP) :
    total_size l ≤ l.length * heap_CAP := by
  induction l with
  | nil => simp [total_size]
  | cons c rest ih =>
    have h1 := h c (by simp)
    have h2 := ih (fun x hx => h x (by simp [hx]))
    rw [total_size_cons, List.length_cons, Nat.succ_mul]
    omega

/-! ## The claims -/

/-- Claim C1. The partition property does not survive the first allocation: for an arena at any
address `H`, `heap_alloc 18` on the initial state returns `H` and leaves a reachable state in
which byte `H + 18` of the arena lies in no chunk, allocated or free. -/
theorem partition_fails_after_first_alloc (H : Nat) :
    ∃ st, heap_alloc 18 (initial H) = .ok (.value H, st) ∧ Reachable H st ∧
      ¬ Partition H st := by
  refine ⟨_, heap_alloc_initial_18 H, ?_, ?_⟩
  · exact Reachable.alloc 18 _ _ _ Reachable.init (heap_alloc_initial_18 H)
  · rintro ⟨hcov, -⟩
    have h := (hcov (H + 18)).2 ⟨by omega, by unfold heap_CAP; omega⟩
    obtain ⟨c, hc, h1, h2⟩ := h
    simp only [List.cons_append, List.nil_append, List.mem_cons, List.mem_nil_iff,
      or_false] at hc
    rcases hc with rfl | rfl
    · dsimp only at h2
      omega
    · dsimp only at h1 h2
      omega

/-- Claim C2. With a first free chunk that is too small and a later one that is large enough,
`heap_alloc` returns the start of the first chunk and records nothing: on the free list
`[(0,3),(10,20)]` a request for 5 bytes returns `0`, not `10`; and in the state reached from
the initial one by `heap_alloc 3` and `heap_free` of its result, a request for 5 bytes returns
the start of the 3-byte chunk although the second free chunk has 639997 bytes. -/
theorem heap_alloc_stops_at_first_chunk :
    heap_alloc 5 ⟨[], [⟨0, 3⟩, ⟨10, 20⟩]⟩ = .ok (.value 0, ⟨[], [⟨0, 3⟩, ⟨10, 20⟩]⟩) ∧
    Reachable 4096 ⟨[], [⟨4096, 3⟩, ⟨4108, 639997⟩]⟩ ∧
    heap_alloc 5 ⟨[], [⟨4096, 3⟩, ⟨4108, 639997⟩]⟩ =
      .ok (.value 4096, ⟨[], [⟨4096, 3⟩, ⟨4108, 639997⟩]⟩) := by
  refine ⟨by rfl, ?_, by rfl⟩
  have h1 : Reachable 4096 ⟨[⟨4096, 3⟩], [⟨4108, 639997⟩]⟩ :=
    Reachable.alloc 3 (.value 4096) (initial 4096) _ Reachable.init (by rfl)
  exact Reachable.free 4096 _ _ h1 (by rfl)

/-- Claim C3. The tail of a split is placed at `base + 4 * size`, not at `base + size`: on the
free list `[(0,10),(20,5),(30,50)]` a request for 5 bytes returns `0` and leaves the free list
`[(20,5),(20,5),(30,50)]`; and from the initial state with the arena at 4096 a request for 5
bytes leaves the free chunk `(4116, 639995)`. -/
theorem heap_alloc_split_tail_scaled :
    heap_alloc 5 ⟨[], [⟨0, 10⟩, ⟨20, 5⟩, ⟨30, 50⟩]⟩ =
      .ok (.value 0, ⟨[⟨0, 5⟩], [⟨20, 5⟩, ⟨20, 5⟩, ⟨30, 50⟩]⟩) ∧
    heap_alloc 5 (initial 4096) = .ok (.value 4096, ⟨[⟨4096, 5⟩], [⟨4116, 639995⟩]⟩) := by
  exact ⟨by rfl, by rfl⟩

/-- Claim C4. A request larger than every free chunk does not return the null pointer when the
free list is not empty: with the single free chunk `(1000,3)` a request for 4 bytes returns
`1000`; and in the state reached from the initial one by `heap_alloc 639997`, whose only free
chunk has 3 bytes, a request for 4 bytes returns the start of that chunk. -/
theorem heap_alloc_exhausted_returns_first_start :
    heap_alloc 4 ⟨[], [⟨1000, 3⟩]⟩ = .ok (.value 1000, ⟨[], [⟨1000, 3⟩]⟩) ∧
    RetVal.value 1000 ≠ RetVal.value NULL ∧
    Reachable 4096 ⟨[⟨4096, 639997⟩], [⟨2564084, 3⟩]⟩ ∧
    heap_alloc 4 ⟨[⟨4096, 639997⟩], [⟨2564084, 3⟩]⟩ =
      .ok (.value 2564084, ⟨[⟨4096, 639997⟩], [⟨2564084, 3⟩]⟩) := by
  refine ⟨by rfl, by decide, ?_, by rfl⟩
  exact Reachable.alloc 639997 (.value 4096) (initial 4096) _ Reachable.init (by rfl)

/-- Claim C5. A request of positive size that is larger than every free chunk returns (no
fault) and leaves the allocated list and the free list exactly as they were. -/
theorem heap_alloc_exhausted_keeps_state (st : Heap) (size : Nat) (hpos : 0 < size)
    (hbig : ∀ c ∈ st.freed_chunks, c.size < size) :
    ∃ r, heap_alloc size st = .ok (r, st) := by
  obtain ⟨alloced, freed⟩ := st
  cases freed with
  | nil => exact ⟨.value NULL, by simp [heap_alloc, hpos]⟩
  | cons chunk rest =>
    have hlt : chunk.size < size := hbig chunk (by simp)
    exact ⟨.value chunk.start, by simp [heap_alloc, hpos, Nat.not_le.mpr hlt]⟩

/-- Claim C5 at a concrete state: one free chunk of 3 bytes, a request for 4. -/
theorem heap_alloc_exhausted_keeps_state_witness :
    ∃ r, heap_alloc 4 ⟨[⟨0, 5⟩], [⟨20, 3⟩]⟩ = .ok (r, ⟨[⟨0, 5⟩], [⟨20, 3⟩]⟩) :=
  heap_alloc_exhausted_keeps_state ⟨[⟨0, 5⟩], [⟨20, 3⟩]⟩ 4 (by decide) (by decide)

/-- Claim C6. Releasing the start of an allocated chunk that is not the first of the allocated
list moves the first chunk instead: with allocated list `[(100,10),(200,10)]`, `heap_free 200`
leaves `(200,10)` allocated and puts `(100,10)` on the free list; the same happens in the state
reached from the initial one by two `heap_alloc 10`, when the second result 4136 is
released. -/
theorem heap_free_moves_first_chunk :
    heap_free 200 ⟨[⟨100, 10⟩, ⟨200, 10⟩], []⟩ = .ok ⟨[⟨200, 10⟩], [⟨100, 10⟩]⟩ ∧
    Reachable 4096 ⟨[⟨4096, 10⟩, ⟨4136, 10⟩], [⟨4176, 639980⟩]⟩ ∧
    heap_free 4136 ⟨[⟨4096, 10⟩, ⟨4136, 10⟩], [⟨4176, 639980⟩]⟩ =
      .ok ⟨[⟨4136, 10⟩], [⟨4096, 10⟩, ⟨4176, 639980⟩]⟩ := by
  exact ⟨by rfl, reachable_after_two_alloc_10, by rfl⟩

/-- Claim C7, as stated, fails at two inputs. With the sorted allocated list `[(4096,18)]`,
`heap_free NULL` returns and changes nothing although `NULL` is the start of no allocated chunk;
and `heap_free (4096 + 2 ^ 32)` returns and releases the chunk at 4096, because the comparator
returns the byte difference as `int`. -/
theorem heap_free_invalid_returns :
    SortedByStart [(⟨4096, 18⟩ : Chunk)] ∧
    (∀ c ∈ [(⟨4096, 18⟩ : Chunk)], c.start ≠ NULL ∧ c.start ≠ 4096 + 2 ^ 32) ∧
    heap_free NULL ⟨[⟨4096, 18⟩], [⟨4168, 639982⟩]⟩ =
      .ok ⟨[⟨4096, 18⟩], [⟨4168, 639982⟩]⟩ ∧
    heap_free (4096 + 2 ^ 32) ⟨[⟨4096, 18⟩], [⟨4168, 639982⟩]⟩ =
      .ok ⟨[], [⟨4096, 18⟩, ⟨4168, 639982⟩]⟩ := by
  refine ⟨by simp [SortedByStart], by decide, by rfl, by rfl⟩

/-- Claim C7, amended. For every state and every non-null address that is congruent modulo
`2 ^ 32` to the start of no allocated chunk (so every address that is no allocated start, but
for those a nonzero multiple of `2 ^ 32` bytes away from one), `heap_free` ends in the failed
assertion; `heap_free NULL` returns and leaves the state as it is. -/
theorem heap_free_invalid_is_fatal (st : Heap) (p : Nat) (hp : p ≠ NULL)
    (hnot : ∀ c ∈ st.alloced_Chunks, c.start % 2 ^ 32 ≠ p % 2 ^ 32) :
    heap_free p st = .error .assertion ∧ heap_free NULL st = .ok st := by
  constructor
  · unfold heap_free
    rw [chunk_list_find_absent _ _ hnot]
    simp [hp]
  · simp [heap_free]

/-- Claim C7, amended, at a concrete state: the far address `0x7FFFFFFFEC00` (a stack address)
with the allocated list `[(4096,18)]`. -/
theorem heap_free_invalid_is_fatal_witness :
    heap_free 140737488350208 ⟨[⟨4096, 18⟩], [⟨4168, 639982⟩]⟩ = .error .assertion ∧
    heap_free NULL ⟨[⟨4096, 18⟩], [⟨4168, 639982⟩]⟩ =
      .ok ⟨[⟨4096, 18⟩], [⟨4168, 639982⟩]⟩ :=
  heap_free_invalid_is_fatal ⟨[⟨4096, 18⟩], [⟨4168, 639982⟩]⟩ 140737488350208 (by decide)
    (by decide)

/-- Claim C8. The round trip fails in the state reached by one `heap_alloc 10` (arena at 4096):
a second `heap_alloc 10` returns 4136 and records `(4136,10)`; `heap_free 4136` then removes
`(4096,10)` from the allocated list, which becomes `[(4136,10)]` instead of the earlier
`[(4096,10)]`, and the merged free list is `[(4096,10),(4176,639980)]` instead of the earlier
`[(4136,639990)]`. -/
theorem alloc_free_round_trip_fails :
    Reachable 4096 ⟨[⟨4096, 10⟩], [⟨4136, 639990⟩]⟩ ∧
    heap_alloc 10 ⟨[⟨4096, 10⟩], [⟨4136, 639990⟩]⟩ =
      .ok (.value 4136, ⟨[⟨4096, 10⟩, ⟨4136, 10⟩], [⟨4176, 639980⟩]⟩) ∧
    heap_free 4136 ⟨[⟨4096, 10⟩, ⟨4136, 10⟩], [⟨4176, 639980⟩]⟩ =
      .ok ⟨[⟨4136, 10⟩], [⟨4096, 10⟩, ⟨4176, 639980⟩]⟩ ∧
    ([⟨4136, 10⟩] : chunk_List) ≠ [⟨4096, 10⟩] ∧
    chunk_list_merge [⟨4136, 639990⟩] = .ok [⟨4136, 639990⟩] ∧
    chunk_list_merge [⟨4096, 10⟩, ⟨4176, 639980⟩] = .ok [⟨4096, 10⟩, ⟨4176, 639980⟩] := by
  exact ⟨reachable_after_alloc_10, by rfl, by rfl, by decide, by rfl, by rfl⟩

/-- Claim C9. Two free chunks that touch byte for byte are not merged: `chunk_list_merge` maps
the sorted, non-overlapping list `[(0,10),(10,5)]` to itself, because it compares
`start + 4 * size` with the next start. -/
theorem chunk_list_merge_keeps_adjacent_pair :
    SortedByStart [(⟨0, 10⟩ : Chunk), ⟨10, 5⟩] ∧
    [(⟨0, 10⟩ : Chunk), ⟨10, 5⟩].Pairwise Disjoint2 ∧
    chunk_list_merge [⟨0, 10⟩, ⟨10, 5⟩] = .ok [⟨0, 10⟩, ⟨10, 5⟩] := by
  refine ⟨by simp [SortedByStart], by simp [Disjoint2], by rfl⟩

/-- Claim C10. Two free chunks separated by a gap are merged when the gap is three times the
size of the first: `chunk_list_merge` maps the sorted, non-overlapping list `[(0,10),(40,5)]`
to `[(0,15)]`, which covers byte 12 (not covered before) and no longer covers byte 40. -/
theorem chunk_list_merge_changes_coverage :
    SortedByStart [(⟨0, 10⟩ : Chunk), ⟨40, 5⟩] ∧
    [(⟨0, 10⟩ : Chunk), ⟨40, 5⟩].Pairwise Disjoint2 ∧
    chunk_list_merge [⟨0, 10⟩, ⟨40, 5⟩] = .ok [⟨0, 15⟩] ∧
    (Covered [⟨0, 15⟩] 12 ∧ ¬ Covered [⟨0, 10⟩, ⟨40, 5⟩] 12) ∧
    (Covered [⟨0, 10⟩, ⟨40, 5⟩] 40 ∧ ¬ Covered [⟨0, 15⟩] 40) := by
  refine ⟨by simp [SortedByStart], by simp [Disjoint2], by rfl, ?_, ?_⟩ <;>
    simp [Covered]

/-- Claim C11. For every list sorted by `start` whose count is within capacity,
`chunk_list_merge` returns some list `M`, and `chunk_list_merge` applied to `M` returns `M`
again. -/
theorem chunk_list_merge_idempotent (L : chunk_List) (hs : SortedByStart L)
    (hcap : L.length ≤ chunk_list_CAP) :
    ∃ M, chunk_list_merge L = .ok M ∧ chunk_list_merge M = .ok M :=
  chunk_list_merge_twice L hs hcap

/-- Claim C11 at a concrete list: `[(0,10),(40,5),(100,5)]`. -/
theorem chunk_list_merge_idempotent_witness :
    ∃ M, chunk_list_merge [⟨0, 10⟩, ⟨40, 5⟩, ⟨100, 5⟩] = .ok M ∧
      chunk_list_merge M = .ok M :=
  chunk_list_merge_idempotent [⟨0, 10⟩, ⟨40, 5⟩, ⟨100, 5⟩] (by simp [SortedByStart])
    (by decide)

/-- Claim C12. From an empty allocated list and the single free chunk `(4096,30)`, three
`heap_alloc 10` return 4096, 4136 and 4176 (not 4096, 4106, 4116); `heap_free` of the second
result 4136 followed by `coalesce` leaves the one free chunk `(4096,10)`, the first chunk, and
leaves the second and third chunks allocated. -/
theorem fragmentation_scenario_releases_first :
    heap_alloc 10 ⟨[], [⟨4096, 30⟩]⟩ =
      .ok (.value 4096, ⟨[⟨4096, 10⟩], [⟨4136, 20⟩]⟩) ∧
    heap_alloc 10 ⟨[⟨4096, 10⟩], [⟨4136, 20⟩]⟩ =
      .ok (.value 4136, ⟨[⟨4096, 10⟩, ⟨4136, 10⟩], [⟨4176, 10⟩]⟩) ∧
    heap_alloc 10 ⟨[⟨4096, 10⟩, ⟨4136, 10⟩], [⟨4176, 10⟩]⟩ =
      .ok (.value 4176, ⟨[⟨4096, 10⟩, ⟨4136, 10⟩, ⟨4176, 10⟩], []⟩) ∧
    heap_free 4136 ⟨[⟨4096, 10⟩, ⟨4136, 10⟩, ⟨4176, 10⟩], []⟩ =
      .ok ⟨[⟨4136, 10⟩, ⟨4176, 10⟩], [⟨4096, 10⟩]⟩ ∧
    coalesce ⟨[⟨4136, 10⟩, ⟨4176, 10⟩], [⟨4096, 10⟩]⟩ =
      .ok ⟨[⟨4136, 10⟩, ⟨4176, 10⟩], [⟨4096, 10⟩]⟩ := by
  exact ⟨by rfl, by rfl, by rfl, by rfl, by rfl⟩

/-- Claim C13. From a state in which both lists are sorted by `start`, every `heap_alloc`,
`heap_free` and `coalesce` that returns leaves both lists sorted; and both lists are sorted in
every state reachable from the initial state, for an arena at any address. -/
theorem sort_invariant :
    (∀ (st t : Heap) (size : Nat) (r : RetVal),
      SortedHeap st → heap_alloc size st = .ok (r, t) → SortedHeap t) ∧
    (∀ (st t : Heap) (p : Nat), SortedHeap st → heap_free p st = .ok t → SortedHeap t) ∧
    (∀ st t : Heap, SortedHeap st → coalesce st = .ok t → SortedHeap t) ∧
    (∀ (H : Nat) (st : Heap), Reachable H st → SortedHeap st) :=
  ⟨fun st t size r hs hok => heap_alloc_sorted st t size r hs hok,
    fun st t p hs hok => heap_free_sorted st t p hs hok,
    fun st t hs hok => coalesce_sorted st t hs hok,
    fun H st hr => reachable_sorted H st hr⟩

/-- Claim C13 on the demonstration of `main` with the arena at 4096: the states after
`heap_alloc 18`, after `heap_free 4096` and after a following `coalesce` are sorted. -/
theorem sort_invariant_witness :
    SortedHeap ⟨[⟨4096, 18⟩], [⟨4168, 639982⟩]⟩ ∧
    SortedHeap ⟨[], [⟨4096, 18⟩, ⟨4168, 639982⟩]⟩ ∧
    SortedHeap ⟨[], [⟨4096, 640000⟩]⟩ :=
  ⟨sort_invariant.1 (initial 4096) ⟨[⟨4096, 18⟩], [⟨4168, 639982⟩]⟩ 18 (.value 4096)
      ⟨by simp [initial, SortedByStart], by simp [initial, SortedByStart]⟩ (by rfl),
    sort_invariant.2.1 ⟨[⟨4096, 18⟩], [⟨4168, 639982⟩]⟩ ⟨[], [⟨4096, 18⟩, ⟨4168, 639982⟩]⟩
      4096 ⟨by simp [SortedByStart], by simp [SortedByStart]⟩ (by rfl),
    sort_invariant.2.2.1 ⟨[], [⟨4096, 18⟩, ⟨4168, 639982⟩]⟩ ⟨[], [⟨4096, 640000⟩]⟩
      ⟨by simp [SortedByStart], by simp [SortedByStart]⟩ (by rfl)⟩

/-- Claim C14. In every state `heap_alloc 0` executes no `return` statement: the body of
`if (size>0)` is skipped and control flows off the end of the `void *` function, which is
undefined behaviour; the call neither returns the null pointer nor is bound to leave the lists
as they were. -/
theorem heap_alloc_zero_undefined (st : Heap) :
    heap_alloc 0 st = .error .undefined := by
  simp [heap_alloc]

/-- Claim C15. The function `chunk_list_find` returns the slot index divided by 16: in the
sorted list `[(100,10),(200,10)]` the address 200 of slot 1 is reported at index 0, and in the
sorted list of the twenty chunks `(100 + 10 * i, 10)` the address 270 of slot 17 is reported
at index 1. -/
theorem chunk_list_find_divides_index :
    SortedByStart [(⟨100, 10⟩ : Chunk), ⟨200, 10⟩] ∧
    ([(⟨100, 10⟩ : Chunk), ⟨200, 10⟩].getD 1 default).start = 200 ∧
    chunk_list_find [⟨100, 10⟩, ⟨200, 10⟩] 200 = 0 ∧
    (((List.range 20).map (fun i => (⟨100 + 10 * i, 10⟩ : Chunk))).getD 17 default).start
      = 270 ∧
    chunk_list_find ((List.range 20).map (fun i => ⟨100 + 10 * i, 10⟩)) 270 = 1 := by
  refine ⟨by simp [SortedByStart], by rfl, by rfl, by rfl, by rfl⟩

/-- Claim C16. The function `chunk_list_remove` deletes slot 0 whatever the index: on
`[(0,10),(40,5),(50,5)]` with index 1 it returns `[(40,5),(50,5)]`, not `[(0,10),(50,5)]`. -/
theorem chunk_list_remove_ignores_index :
    chunk_list_remove [⟨0, 10⟩, ⟨40, 5⟩, ⟨50, 5⟩] 1 = .ok [⟨40, 5⟩, ⟨50, 5⟩] ∧
    ([⟨40, 5⟩, ⟨50, 5⟩] : chunk_List) ≠ [⟨0, 10⟩, ⟨50, 5⟩] := by
  exact ⟨by rfl, by decide⟩

/-- Claim C17. The assertion of `chunk_list_remove` is `index <= count`: on the three chunks
`[(0,10),(40,5),(50,5)]` the index 3 passes it and slot 0 is deleted, while the index 4 ends in
the failed assertion; on the empty list the index 0 passes it too, and the copy loop then runs
with the wrapped bound `count - 1`. -/
theorem chunk_list_remove_accepts_count :
    chunk_list_remove [⟨0, 10⟩, ⟨40, 5⟩, ⟨50, 5⟩] 3 = .ok [⟨40, 5⟩, ⟨50, 5⟩] ∧
    chunk_list_remove [⟨0, 10⟩, ⟨40, 5⟩, ⟨50, 5⟩] 4 = .error .assertion ∧
    chunk_list_remove [] 0 = .error .undefined := by
  exact ⟨by rfl, by rfl, by rfl⟩

/-- Claim C18. For every list sorted by `start` with fewer than 1024 chunks and every new
chunk, `chunk_list_insert` returns a list with one more chunk that is sorted by `start` and is
a permutation of the new chunk and the old ones. -/
theorem chunk_list_insert_sorted_perm (list : chunk_List) (start size : Nat)
    (hs : SortedByStart list) (hcap : list.length < chunk_list_CAP) :
    ∃ out, chunk_list_insert list start size = .ok out ∧ out.length = list.length + 1 ∧
      SortedByStart out ∧ out.Perm (⟨start, size⟩ :: list) :=
  chunk_list_insert_sorted list start size hs hcap

/-- Claim C18 at a concrete list: `(45,1)` inserted into `[(0,10),(40,5),(50,5)]`. -/
theorem chunk_list_insert_sorted_perm_witness :
    ∃ out, chunk_list_insert [⟨0, 10⟩, ⟨40, 5⟩, ⟨50, 5⟩] 45 1 = .ok out ∧
      out.length = [(⟨0, 10⟩ : Chunk), ⟨40, 5⟩, ⟨50, 5⟩].length + 1 ∧
      SortedByStart out ∧ out.Perm (⟨45, 1⟩ :: [⟨0, 10⟩, ⟨40, 5⟩, ⟨50, 5⟩]) :=
  chunk_list_insert_sorted_perm [⟨0, 10⟩, ⟨40, 5⟩, ⟨50, 5⟩] 45 1 (by simp [SortedByStart])
    (by decide)

/-- Claim C19, as stated, fails when the allocated list is full: after 1024 calls
`heap_alloc(1)` from the initial state of an arena at 4096 the free list is the one chunk
`(8192, 638976)`, and one more `heap_alloc(1)` does not return its start but ends in the failed
capacity assertion of `chunk_list_insert`. -/
theorem heap_alloc_aborts_at_capacity :
    Reachable 4096 (one_byte_allocs 1024) ∧
    (one_byte_allocs 1024).freed_chunks = [⟨8192, 638976⟩] ∧
    heap_alloc 1 (one_byte_allocs 1024) = .error .assertion := by
  refine ⟨reachable_one_byte_allocs 1024 (by decide), by rfl, ?_⟩
  exact heap_alloc_full_allocated _ [] ⟨4096 + 4 * 1024, heap_CAP - 1024⟩ 1 (by decide)
    (by decide) (by rw [List.length_map, List.length_range]; decide)

/-- Claim C19, amended. For every state with a non-empty free list (within capacity) with first
chunk `c`, and every `size > 0`, provided the allocated list is below capacity whenever
`c.size >= size`: `heap_alloc` returns `c.start`, whatever the later free chunks are. With
`c.size < size` nothing is recorded: the state is unchanged. With `c.size >= size` an allocation
is recorded: the allocated list becomes the result of `chunk_list_insert` of `(c.start, size)`,
a permutation of that chunk and the old ones, and the free list loses `c`, becoming the rest of
the list when `c.size = size` and the result of `chunk_list_insert` of the tail
`((int *)c.start + size, c.size - size)` into the rest otherwise. The state is modified exactly
when `c.size >= size`. -/
theorem heap_alloc_first_entry_only (alloced rest : chunk_List) (c : Chunk) (size : Nat)
    (hpos : 0 < size) (hA : size ≤ c.size → alloced.length < chunk_list_CAP)
    (hF : rest.length < chunk_list_CAP) :
    ∃ t, heap_alloc size ⟨alloced, c :: rest⟩ = .ok (.value c.start, t) ∧
      (c.size < size → t = ⟨alloced, c :: rest⟩) ∧
      (size ≤ c.size →
        chunk_list_insert alloced c.start size = .ok t.alloced_Chunks ∧
        t.alloced_Chunks.Perm (⟨c.start, size⟩ :: alloced) ∧
        (c.size = size → t.freed_chunks = rest) ∧
        (size < c.size →
          chunk_list_insert rest (int_ptr_add c.start size) (c.size - size) =
            .ok t.freed_chunks)) ∧
      (t ≠ ⟨alloced, c :: rest⟩ ↔ size ≤ c.size) :=
  heap_alloc_first_entry_aux alloced rest c size hpos hA hF

/-- Claim C19, amended, at two concrete states: the first free chunk `(4096,640000)` of the
initial state with a request for 18 bytes (it fits), and the free list
`[(4096,3),(4108,639997)]` with a request for 5 bytes (the first chunk does not fit). -/
theorem heap_alloc_first_entry_only_witness :
    (∃ t, heap_alloc 18 ⟨[], [⟨4096, 640000⟩]⟩ = .ok (.value 4096, t) ∧
      (640000 < 18 → t = ⟨[], [⟨4096, 640000⟩]⟩) ∧
      (18 ≤ 640000 →
        chunk_list_insert [] 4096 18 = .ok t.alloced_Chunks ∧
        t.alloced_Chunks.Perm [⟨4096, 18⟩] ∧
        (640000 = 18 → t.freed_chunks = []) ∧
        (18 < 640000 →
          chunk_list_insert [] (int_ptr_add 4096 18) (640000 - 18) = .ok t.freed_chunks)) ∧
      (t ≠ ⟨[], [⟨4096, 640000⟩]⟩ ↔ 18 ≤ 640000)) ∧
    (∃ t, heap_alloc 5 ⟨[], [⟨4096, 3⟩, ⟨4108, 639997⟩]⟩ = .ok (.value 4096, t) ∧
      (3 < 5 → t = ⟨[], [⟨4096, 3⟩, ⟨4108, 639997⟩]⟩)) := by
  refine ⟨heap_alloc_first_entry_only [] [] ⟨4096, 640000⟩ 18 (by decide) (by decide)
    (by decide), ?_⟩
  obtain ⟨t, h1, h2, -⟩ := heap_alloc_first_entry_only [] [⟨4108, 639997⟩] ⟨4096, 3⟩ 5
    (by decide) (by decide) (by decide)
  exact ⟨t, h1, h2⟩

/-- Claim C20. For every list whose count is within capacity, `chunk_list_merge` returns (the
capacity assertion of `chunk_list_insert` does not fire), its result has at most as many chunks
as the input, and the sum of its `size` fields equals the sum of the `size` fields of the
input: as `size_t` values (modulo `2 ^ 64`) always, and as natural numbers whenever the input
sum is below `2 ^ 64`, in particular for every list whose chunks are no larger than the
arena. -/
theorem chunk_list_merge_total_size (src : chunk_List)
    (hcap : src.length ≤ chunk_list_CAP) :
    ∃ dst, chunk_list_merge src = .ok dst ∧ dst.length ≤ src.length ∧
      total_size dst % WORD = total_size src % WORD ∧
      (total_size src < WORD → total_size dst = total_size src) ∧
      ((∀ c ∈ src, c.size ≤ heap_CAP) → total_size dst = total_size src) := by
  obtain ⟨out, hok, hlen, hmod, hex⟩ :=
    chunk_list_merge_loop_total src [] (by simpa using hcap)
  have hex2 : total_size src < WORD → total_size out = total_size src := by
    intro hlt
    have := hex (by simpa [total_size] using hlt)
    simpa [total_size] using this
  refine ⟨out, hok, by simpa using hlen, ?_, hex2, ?_⟩
  · simpa [total_size] using hmod
  · intro hsz
    apply hex2
    have h1 := total_size_le_of_sizes_le src hsz
    have h2 : src.length * heap_CAP ≤ chunk_list_CAP * heap_CAP :=
      Nat.mul_le_mul_right _ hcap
    have h3 : chunk_list_CAP * heap_CAP < WORD := by decide
    omega

/-- Claim C20 at a concrete list: `[(0,10),(40,5),(100,5)]`, merged into two chunks of sizes
15 and 5. -/
theorem chunk_list_merge_total_size_witness :
    ∃ dst, chunk_list_merge [⟨0, 10⟩, ⟨40, 5⟩, ⟨100, 5⟩] = .ok dst ∧
      dst.length ≤ [(⟨0, 10⟩ : Chunk), ⟨40, 5⟩, ⟨100, 5⟩].length ∧
      total_size dst % WORD = total_size [⟨0, 10⟩, ⟨40, 5⟩, ⟨100, 5⟩] % WORD ∧
      (total_size [⟨0, 10⟩, ⟨40, 5⟩, ⟨100, 5⟩] < WORD →
        total_size dst = total_size [⟨0, 10⟩, ⟨40, 5⟩, ⟨100, 5⟩]) ∧
      ((∀ c ∈ [(⟨0, 10⟩ : Chunk), ⟨40, 5⟩, ⟨100, 5⟩], c.size ≤ heap_CAP) →
        total_size dst = total_size [⟨0, 10⟩, ⟨40, 5⟩, ⟨100, 5⟩]) :=
  chunk_list_merge_total_size [⟨0, 10⟩, ⟨40, 5⟩, ⟨100, 5⟩] (by decide)

end Malloc
